import Mathlib

/-!
Verification development for the stone trading repository.

The embedding models the trade-simulation core: `BacktestEngine._execute_single_trade`
and its helpers (src/backtest/backtest_engine.py), `PositionManager`
(src/utils/position_manager.py), and the weighted-average signal combiner
(src/strategies/strategy_manager.py).

Conventions of the shallow embedding:
* Python floats carrying money, prices and rates are modelled as exact rationals `ℚ`;
  Python ints (share quantities, lot sizes) as `ℤ`.
* Python dictionaries keyed by symbol are association lists `List (String × α)`;
  `getEntry`/`setEntry` mirror `d[k]` reads and writes (first-occurrence semantics).
* `int(x)` (truncation toward zero) is `pyInt`; Python's floor division `//` is `Int.fdiv`.
* `datetime` values are abstracted to integers; the impure `datetime.now()` calls of
  `PositionManager` become an explicit `now : ℤ` argument.
* Mutation of `self` becomes explicit state passing: each method returns its new state,
  and `_execute_single_trade` additionally returns the final field values of the
  `Signal` object it received (the Python code assigns to `signal.quantity` in place).
-/

namespace Stone

/-- Python `int(x)` applied to a float: truncation toward zero. -/
def pyInt (x : ℚ) : ℤ := if 0 ≤ x then ⌊x⌋ else -⌊-x⌋

/-- First-occurrence lookup in an association list (Python `d[k]` / `k in d`). -/
def getEntry {α : Type} : List (String × α) → String → Option α
  | [], _ => none
  | (s, v) :: rest, sym => if s = sym then some v else getEntry rest sym

/-- Write through an association list (Python `d[k] = v`): replaces the first
occurrence of the key, appends when the key is absent. -/
def setEntry {α : Type} : List (String × α) → String → α → List (String × α)
  | [], sym, v => [(sym, v)]
  | (s, w) :: rest, sym, v =>
    if s = sym then (sym, v) :: rest else (s, w) :: setEntry rest sym v

/-- Python `del d[k]`: removes the (unique) entry for the key. -/
def delEntry {α : Type} : List (String × α) → String → List (String × α)
  | [], _ => []
  | (s, w) :: rest, sym => if s = sym then rest else (s, w) :: delEntry rest sym

/-- The `signal_type` strings `'buy'`/`'sell'` after `.lower()`; anything else
falls through both branches of `_execute_single_trade`. -/
inductive SigType
  | buy
  | sell
  | hold
deriving DecidableEq

/-- `Signal` from src/strategies/base_strategy.py (lines 14-46). -/
structure Sig where
  symbol : String
  signal_type : SigType
  price : ℚ
  quantity : ℤ
  timestamp : ℤ
  confidence : ℚ
  reason : String
deriving DecidableEq

/-- A `self.positions[symbol]` entry of `BacktestEngine`:
`{'quantity': …, 'avg_price': …, 'total_cost': …}`. -/
structure PosInfo where
  quantity : ℤ
  avg_price : ℚ
  total_cost : ℚ
deriving DecidableEq

/-- A record appended to `self.trades` by `_execute_single_trade`; buy and sell
records carry different keys in the source, hence two constructors.
(The string-valued `reason` key is audit-only and omitted.) -/
inductive TradeRec
  | buyRec (timestamp : ℤ) (symbol : String) (quantity : ℤ)
      (price amount commission total_cost capital_after : ℚ)
  | sellRec (timestamp : ℤ) (symbol : String) (quantity : ℤ)
      (price amount commission stamp_tax total_fees net_amount profit_loss capital_after : ℚ)
deriving DecidableEq

def TradeRec.timestamp : TradeRec → ℤ
  | .buyRec ts _ _ _ _ _ _ _ => ts
  | .sellRec ts _ _ _ _ _ _ _ _ _ _ => ts

def TradeRec.symbol : TradeRec → String
  | .buyRec _ sym _ _ _ _ _ _ => sym
  | .sellRec _ sym _ _ _ _ _ _ _ _ _ => sym

def TradeRec.quantity : TradeRec → ℤ
  | .buyRec _ _ q _ _ _ _ _ => q
  | .sellRec _ _ q _ _ _ _ _ _ _ _ => q

/-- Constructor parameters of `BacktestEngine.__init__`. -/
structure EngineParams where
  commission_rate : ℚ
  stamp_tax_rate : ℚ
  min_trade_unit : ℤ
deriving DecidableEq

/-- The engine's defaults: commission 0.0003, stamp tax 0.001, lot 100. -/
def defaultEngineParams : EngineParams := ⟨3/10000, 1/1000, 100⟩

/-- The mutable backtest state of `BacktestEngine`: `current_capital`,
`positions`, `trades`. -/
structure EngineState where
  capital : ℚ
  positions : List (String × PosInfo)
  trades : List TradeRec
deriving DecidableEq

/-- The holding recorded for a symbol; absent entries read as the
zero-initialized `{'quantity': 0, 'avg_price': 0, 'total_cost': 0}`. -/
def EngineState.holding (st : EngineState) (sym : String) : PosInfo :=
  (getEntry st.positions sym).getD ⟨0, 0, 0⟩

/-- Lines 181-186: `if symbol not in self.positions: self.positions[symbol] = {0,0,0}`. -/
def ensurePos (ps : List (String × PosInfo)) (sym : String) : List (String × PosInfo) :=
  match getEntry ps sym with
  | some _ => ps
  | none => ps ++ [(sym, ⟨0, 0, 0⟩)]

/-- The common tail of the buy branch (lines 212-235), reached with the signal's
quantity already final: update the position's weighted totals, deduct
`total_cost` from capital, append the buy trade record. -/
def buyFill (p : EngineParams) (st : EngineState) (position : PosInfo) (sig : Sig) :
    EngineState :=
  let trade_amount := sig.price * (sig.quantity : ℚ)
  let commission := trade_amount * p.commission_rate
  let total_cost := trade_amount + commission
  let new_quantity := position.quantity + sig.quantity
  let new_total_cost := position.total_cost + trade_amount
  let position' : PosInfo := ⟨new_quantity, new_total_cost / (new_quantity : ℚ), new_total_cost⟩
  let capital' := st.capital - total_cost
  { capital := capital'
    positions := setEntry st.positions sig.symbol position'
    trades := st.trades ++ [TradeRec.buyRec sig.timestamp sig.symbol sig.quantity sig.price
      trade_amount commission total_cost capital'] }

/-- `BacktestEngine._execute_single_trade` (lines 170-281).  Returns the new
engine state together with the final field values of the `signal` argument
(line 207 assigns `signal.quantity = adjusted_quantity` in place). -/
def executeSingleTrade (p : EngineParams) (st : EngineState) (sig : Sig) :
    EngineState × Sig :=
  let ps := ensurePos st.positions sig.symbol
  let position := (getEntry ps sig.symbol).getD ⟨0, 0, 0⟩
  let st := { st with positions := ps }
  match sig.signal_type with
  | .buy =>
    let trade_amount := sig.price * (sig.quantity : ℚ)
    let commission := trade_amount * p.commission_rate
    let total_cost := trade_amount + commission
    if total_cost > st.capital then
      let available_amount := st.capital * (95 / 100)
      let adjusted := pyInt (available_amount / (sig.price * (1 + p.commission_rate)))
      let adjusted_quantity := adjusted.fdiv p.min_trade_unit * p.min_trade_unit
      if adjusted_quantity < p.min_trade_unit then
        (st, sig)
      else
        let sig' := { sig with quantity := adjusted_quantity }
        (buyFill p st position sig', sig')
    else
      (buyFill p st position sig, sig)
  | .sell =>
    let sell_quantity := min sig.quantity position.quantity
    if sell_quantity = 0 then
      (st, sig)
    else
      let trade_amount := sig.price * (sell_quantity : ℚ)
      let commission := trade_amount * p.commission_rate
      let stamp_tax := trade_amount * p.stamp_tax_rate
      let total_fees := commission + stamp_tax
      let net_amount := trade_amount - total_fees
      let cost_basis := position.avg_price * (sell_quantity : ℚ)
      let profit_loss := trade_amount - cost_basis - total_fees
      let remaining := position.quantity - sell_quantity
      let position' : PosInfo :=
        if remaining > 0 then ⟨remaining, position.avg_price, position.total_cost - cost_basis⟩
        else ⟨remaining, 0, 0⟩
      let capital' := st.capital + net_amount
      ({ capital := capital'
         positions := setEntry ps sig.symbol position'
         trades := st.trades ++ [TradeRec.sellRec sig.timestamp sig.symbol sell_quantity
           sig.price trade_amount commission stamp_tax total_fees net_amount profit_loss
           capital'] }, sig)
  | .hold => (st, sig)

/-- A fresh engine state as set up by `_reset_backtest`. -/
def initialState (initial_capital : ℚ) : EngineState := ⟨initial_capital, [], []⟩

/-- `_execute_trades`: fold the signal list through the engine, keeping the state. -/
def runSignals (p : EngineParams) (st : EngineState) (sigs : List Sig) : EngineState :=
  sigs.foldl (fun st sig => (executeSingleTrade p st sig).1) st

/-- Sum of position market values of the engine ledger, with open positions
valued through the price assignment `px` (the claim's "valued at the fill
price" is the hypothesis `px symbol = fill price`). -/
def sumMV (ps : List (String × PosInfo)) (px : String → ℚ) : ℚ :=
  (ps.map (fun e => (e.2.quantity : ℚ) * px e.1)).sum

/-- The net cashflow a trade record contributes beyond the pure exchange of
shares for cash at the fill price: commission is subtracted on both buys and
sells, stamp tax only on sells.  Derived from the record alone. -/
def recNetCashflow : TradeRec → ℚ
  | .buyRec _ _ _ _ _ commission _ _ => -commission
  | .sellRec _ _ _ _ _ commission stamp_tax _ _ _ _ => -(commission + stamp_tax)

/-- Net cashflow of a trade log (beyond share-for-cash exchange at fill price). -/
def netCashflow (ts : List TradeRec) : ℚ := (ts.map recNetCashflow).sum

/-- Cash movement a trade record causes, as `_calculate_daily_portfolio_values`
re-derives it: a buy subtracts its `total_cost`, a sell adds its `net_amount`. -/
def cashDelta : TradeRec → ℚ
  | .buyRec _ _ _ _ _ _ total_cost _ => -total_cost
  | .sellRec _ _ _ _ _ _ _ _ net_amount _ _ => net_amount

/-- Share-count movement of a trade record: buys add, sells subtract. -/
def qtyDelta : TradeRec → ℤ
  | .buyRec _ _ q _ _ _ _ _ => q
  | .sellRec _ _ q _ _ _ _ _ _ _ _ => -q

/-- The downsized buy quantity computed on the insufficient-funds path
(lines 199-201): `int(0.95*cash / (price*(1+rate)))` rounded down to a lot. -/
def adjustedQty (p : EngineParams) (capital : ℚ) (price : ℚ) : ℤ :=
  (pyInt (capital * (95 / 100) / (price * (1 + p.commission_rate)))).fdiv p.min_trade_unit
    * p.min_trade_unit

/-! ### PositionManager (src/utils/position_manager.py) -/

/-- The `Position` dataclass (lines 14-25); datetimes abstracted to `ℤ`. -/
structure Position where
  symbol : String
  shares : ℤ
  avg_cost : ℚ
  current_price : ℚ
  market_value : ℚ
  unrealized_pnl : ℚ
  unrealized_pnl_pct : ℚ
  entry_date : ℤ
  last_update : ℤ
deriving DecidableEq

/-- `PositionManager` configuration fields read in `__init__`. -/
structure PMConfig where
  max_position_pct : ℚ
  max_total_position : ℚ
  cash_reserve : ℚ
  stop_loss : ℚ
  take_profit : ℚ
deriving DecidableEq

/-- The configuration defaults: 0.25 / 0.90 / 0.10 / 0.08 / 0.15. -/
def defaultPMConfig : PMConfig := ⟨1/4, 9/10, 1/10, 8/100, 15/100⟩

/-- `self.transaction_cost = 0.001` (line 55). -/
def transaction_cost : ℚ := 1/1000

/-- The mutable state of `PositionManager`: `cash` and `positions`. -/
structure PMState where
  cash : ℚ
  positions : List (String × Position)
deriving DecidableEq

/-- Share count held for a symbol in a `PositionManager` ledger (0 if absent). -/
def PMState.shares (st : PMState) (sym : String) : ℤ :=
  ((getEntry st.positions sym).map Position.shares).getD 0

/-- Sum of position values of a `PositionManager` ledger at prices `px`
(shares valued at `px`, as in the fill-price valuation of the claims). -/
def pmSumMV (ps : List (String × Position)) (px : String → ℚ) : ℚ :=
  (ps.map (fun e => (e.2.shares : ℚ) * px e.1)).sum

/-- Sum of the *stored* `market_value` fields, as `calculate_position_size`
and `get_portfolio_status` read them. -/
def pmStoredMV (ps : List (String × Position)) : ℚ :=
  (ps.map (fun e => e.2.market_value)).sum

/-- `PositionManager.buy_stock` (lines 111-156). -/
def buy_stock (st : PMState) (sym : String) (shares : ℤ) (price : ℚ) (now : ℤ) :
    Bool × PMState :=
  let total_cost := (shares : ℚ) * price * (1 + transaction_cost)
  if total_cost > st.cash then (false, st)
  else
    let pos' : Position :=
      match getEntry st.positions sym with
      | some old =>
        let total_shares := old.shares + shares
        let total_cost_basis := old.avg_cost * (old.shares : ℚ) + (shares : ℚ) * price
        let new_avg_cost := total_cost_basis / (total_shares : ℚ)
        ⟨sym, total_shares, new_avg_cost, price, (total_shares : ℚ) * price,
          (price - new_avg_cost) * (total_shares : ℚ), (price - new_avg_cost) / new_avg_cost,
          old.entry_date, now⟩
      | none =>
        ⟨sym, shares, price, price, (shares : ℚ) * price, 0, 0, now, now⟩
    (true, ⟨st.cash - total_cost, setEntry st.positions sym pos'⟩)

/-- `PositionManager.sell_stock` (lines 158-196). -/
def sell_stock (st : PMState) (sym : String) (shares : ℤ) (price : ℚ) (now : ℤ) :
    Bool × PMState :=
  match getEntry st.positions sym with
  | none => (false, st)
  | some position =>
    let s := if shares > position.shares then position.shares else shares
    let gross_income := (s : ℚ) * price
    let commission := gross_income * (3/10000)
    let stamp_tax := gross_income * (1/1000)
    let net_income := gross_income - commission - stamp_tax
    let remaining_shares := position.shares - s
    let positions' :=
      if remaining_shares > 0 then
        setEntry st.positions sym
          ⟨sym, remaining_shares, position.avg_cost, price, (remaining_shares : ℚ) * price,
            (price - position.avg_cost) * (remaining_shares : ℚ),
            (price - position.avg_cost) / position.avg_cost, position.entry_date, now⟩
      else delEntry st.positions sym
    (true, ⟨st.cash + net_income, positions'⟩)

/-- `PositionManager.calculate_position_size` (lines 58-79).  The `try/except`
returning 0 on an exception is not modelled; in `ℚ`, division by zero yields 0. -/
def calculate_position_size (cfg : PMConfig) (st : PMState) (sym : String)
    (signal_strength : ℚ) (current_price : ℚ) : ℤ :=
  if (getEntry st.positions sym).isSome then 0
  else
    let available_cash := st.cash * (1 - cfg.cash_reserve)
    let base_position_value := available_cash * cfg.max_position_pct * signal_strength
    let current_market_value := pmStoredMV st.positions
    let total_value := st.cash + current_market_value
    let current_position_pct := current_market_value / total_value
    if current_position_pct ≥ cfg.max_total_position then 0
    else
      let remaining_capacity := (cfg.max_total_position - current_position_pct) * total_value
      let position_value := min base_position_value remaining_capacity
      let shares := pyInt (position_value / (current_price * (1 + transaction_cost)))
      let required_cash := (shares : ℚ) * current_price * (1 + transaction_cost)
      let shares' := if required_cash > available_cash
        then pyInt (available_cash / (current_price * (1 + transaction_cost)))
        else shares
      max 0 shares'

/-- The loop body of `PositionManager.check_risk_control` (lines 256-269):
walk the held positions in order, appending `(symbol, 'sell', shares)`
full-liquidation actions on stop-loss and `(symbol, 'sell', shares // 2)`
half-liquidation actions on take-profit (skipped when `shares // 2` is 0). -/
def riskActions (cfg : PMConfig) (prices : List (String × ℚ)) :
    List (String × Position) → List (String × String × ℤ)
  | [] => []
  | (sym, position) :: rest =>
    match getEntry prices sym with
    | none => riskActions cfg prices rest
    | some current_price =>
      let pnl_pct := (current_price - position.avg_cost) / position.avg_cost
      if pnl_pct ≤ -cfg.stop_loss then
        (sym, "sell", position.shares) :: riskActions cfg prices rest
      else if pnl_pct ≥ cfg.take_profit then
        let sell_shares := position.shares.fdiv 2
        if sell_shares > 0 then (sym, "sell", sell_shares) :: riskActions cfg prices rest
        else riskActions cfg prices rest
      else riskActions cfg prices rest

/-- `PositionManager.check_risk_control` (lines 251-275).  The method only
reads the ledger, so the state is returned untouched alongside the actions. -/
def check_risk_control (cfg : PMConfig) (st : PMState) (prices : List (String × ℚ)) :
    List (String × String × ℤ) × PMState :=
  (riskActions cfg prices st.positions, st)

/-! ### Weighted-average signal combiner
(src/strategies/strategy_manager.py, lines 156-207) -/

/-- A per-strategy signal as consumed by `_weighted_average_combination`:
it reads `signal.strategy_name`, `signal.signal_type` (`'BUY'`/`'SELL'`
uppercase) and `signal.strength`. -/
structure StratSignal where
  strategy_name : String
  signal_type : String
  strength : ℚ
deriving DecidableEq

/-- The `CombinedSignal` dataclass (the `individual_signals` and
`strategy_weights` echo fields are omitted). -/
structure CombinedSignal where
  symbol : String
  signal_type : String
  combined_strength : ℚ
  confidence : ℚ
deriving DecidableEq

/-- The loop body of `_weighted_average_combination` (lines 163-175),
accumulating `(buy_weight, sell_weight, total_weight)`: strategies with
weight ≤ 0 are skipped entirely, BUY/SELL signals add `weight × strength`
to their side, and every positively weighted signal adds to `total_weight`. -/
def wacStep (weights : List (String × ℚ)) (a : ℚ × ℚ × ℚ) (s : StratSignal) : ℚ × ℚ × ℚ :=
  let weight := (getEntry weights s.strategy_name).getD 0
  if weight ≤ 0 then a
  else if s.signal_type = "BUY" then
    (a.1 + weight * s.strength, a.2.1, a.2.2 + weight)
  else if s.signal_type = "SELL" then
    (a.1, a.2.1 + weight * s.strength, a.2.2 + weight)
  else (a.1, a.2.1, a.2.2 + weight)

/-- `StrategyManager._weighted_average_combination` (lines 156-207). -/
def weightedAverageCombination (weights : List (String × ℚ)) (symbol : String)
    (signals : List StratSignal) : Option CombinedSignal :=
  let acc := signals.foldl (wacStep weights) (0, 0, 0)
  if acc.2.2 = 0 then none
  else
    let net_signal := (acc.1 - acc.2.1) / acc.2.2
    if net_signal > 1/10 then
      some ⟨symbol, "BUY", min net_signal 1, min (|net_signal| * 2) 1⟩
    else if net_signal < -(1/10) then
      some ⟨symbol, "SELL", min |net_signal| 1, min (|net_signal| * 2) 1⟩
    else
      some ⟨symbol, "HOLD", 0, min (|net_signal| * 2) 1⟩

/-- Weight looked up for a signal's strategy (missing strategies weigh 0). -/
def weightOf (weights : List (String × ℚ)) (s : StratSignal) : ℚ :=
  (getEntry weights s.strategy_name).getD 0

/-- Spec-side restatement: total BUY mass `Σ weight_i × strength_i` over
positively weighted BUY signals. -/
def buyMass (weights : List (String × ℚ)) (signals : List StratSignal) : ℚ :=
  (signals.map (fun s =>
    if 0 < weightOf weights s ∧ s.signal_type = "BUY" then weightOf weights s * s.strength
    else 0)).sum

/-- Spec-side restatement: total SELL mass `Σ weight_i × strength_i` over
positively weighted SELL signals. -/
def sellMass (weights : List (String × ℚ)) (signals : List StratSignal) : ℚ :=
  (signals.map (fun s =>
    if 0 < weightOf weights s ∧ s.signal_type = "SELL" then weightOf weights s * s.strength
    else 0)).sum

/-- Spec-side restatement: total participating weight. -/
def totalMass (weights : List (String × ℚ)) (signals : List StratSignal) : ℚ :=
  (signals.map (fun s => if 0 < weightOf weights s then weightOf weights s else 0)).sum

/-- The normalized net signal `(buy_weight - sell_weight) / total_weight`. -/
def netOf (weights : List (String × ℚ)) (signals : List StratSignal) : ℚ :=
  (buyMass weights signals - sellMass weights signals) / totalMass weights signals

/-! ### Signal pooling and sorting (`run_backtest`, lines 88-132) -/

/-- The timestamp order `run_backtest` sorts the pooled signals by
(`all_signals.sort(key=lambda x: x.timestamp)`, line 129). -/
def sigLE (a b : Sig) : Prop := a.timestamp ≤ b.timestamp

instance : DecidableRel sigLE := fun a b => inferInstanceAs (Decidable (a.timestamp ≤ b.timestamp))

instance : IsTotal Sig sigLE := ⟨fun a b => Int.le_total a.timestamp b.timestamp⟩

instance : IsTrans Sig sigLE := ⟨fun _ _ _ h1 h2 => le_trans h1 h2⟩

/-- The signal pool: `run_backtest` iterates the symbols list in order and
extends `all_signals` with each symbol's generated signals. -/
def collectSignals (symbols : List String) (gen : String → List Sig) : List Sig :=
  (symbols.map gen).flatten

/-- Python's `list.sort` is a stable sort; `insertionSort` over the timestamp
key is exactly that (stable sorts with equal keys agree on output). -/
def sortSignals (l : List Sig) : List Sig := l.insertionSort sigLE

/-! ### Daily mark-to-market replay
(`_calculate_daily_portfolio_values`, lines 283-358) -/

/-- A `current_positions[symbol]` entry of the replay: `{'quantity', 'avg_price'}`. -/
structure ReplayPos where
  quantity : ℤ
  avg_price : ℚ
deriving DecidableEq

/-- The replay accumulator: `current_cash` and `current_positions`. -/
structure ReplayState where
  cash : ℚ
  positions : List (String × ReplayPos)
deriving DecidableEq

/-- Share count the replay attributes to a symbol (0 if absent). -/
def ReplayState.qty (st : ReplayState) (sym : String) : ℤ :=
  ((getEntry st.positions sym).map ReplayPos.quantity).getD 0

/-- Lines 315-316 of the replay: `if symbol not in current_positions:
current_positions[symbol] = {'quantity': 0, 'avg_price': 0}`. -/
def ensureReplay (ps : List (String × ReplayPos)) (sym : String) :
    List (String × ReplayPos) :=
  match getEntry ps sym with
  | some _ => ps
  | none => ps ++ [(sym, ⟨0, 0⟩)]

/-- Processing of one logged trade in the day loop (lines 313-332). -/
def applyReplayTrade (st : ReplayState) (t : TradeRec) : ReplayState :=
  let ps := ensureReplay st.positions t.symbol
  let pos := (getEntry ps t.symbol).getD ⟨0, 0⟩
  match t with
  | .buyRec _ sym q price _ _ total_cost _ =>
    let new_quantity := pos.quantity + q
    let avg' := if new_quantity > 0 then
        ((pos.quantity : ℚ) * pos.avg_price + (q : ℚ) * price) / (new_quantity : ℚ)
      else pos.avg_price
    ⟨st.cash - total_cost, setEntry ps sym ⟨new_quantity, avg'⟩⟩
  | .sellRec _ sym q _ _ _ _ _ net_amount _ _ =>
    ⟨st.cash + net_amount, setEntry ps sym ⟨pos.quantity - q, pos.avg_price⟩⟩

/-- One trading day of the replay: process the trades whose timestamp falls on
that day, in log order (`daily_trades`, line 311). -/
def replayDay (dayOf : ℤ → ℤ) (trades : List TradeRec) (st : ReplayState) (d : ℤ) :
    ReplayState :=
  (trades.filter (fun t => dayOf t.timestamp == d)).foldl applyReplayTrade st

/-- The whole replay of `_calculate_daily_portfolio_values`: starting from
`initial_capital` and no positions, walk the trading days in order.
`dayOf` abstracts `timestamp.date()`. -/
def replayTradeLog (dayOf : ℤ → ℤ) (trades : List TradeRec) (initial_capital : ℚ)
    (days : List ℤ) : ReplayState :=
  days.foldl (replayDay dayOf trades) ⟨initial_capital, []⟩

/-- Total cash movement a trade log represents (start-to-finish re-derivation
of `current_cash` by the replay): `Σ (−total_cost | +net_amount)`. -/
def tradesCashSum (ts : List TradeRec) : ℚ := (ts.map cashDelta).sum

/-- Total share-count movement a trade log represents for one symbol. -/
def tradesQtySum (sym : String) (ts : List TradeRec) : ℤ :=
  (ts.map (fun t => if TradeRec.symbol t = sym then qtyDelta t else 0)).sum

/-! ### Association-list lemmas -/

theorem getEntry_setEntry_self {α : Type} (ps : List (String × α)) (sym : String) (v : α) :
    getEntry (setEntry ps sym v) sym = some v := by
  induction ps with
  | nil => simp [setEntry, getEntry]
  | cons e rest ih =>
    obtain ⟨s, w⟩ := e
    by_cases h : s = sym <;> simp [setEntry, getEntry, h, ih]

theorem getEntry_setEntry_ne {α : Type} (ps : List (String × α)) (sym sym' : String) (v : α)
    (h : sym ≠ sym') : getEntry (setEntry ps sym v) sym' = getEntry ps sym' := by
  induction ps with
  | nil => simp [setEntry, getEntry, h]
  | cons e rest ih =>
    obtain ⟨s, w⟩ := e
    by_cases hs : s = sym <;> simp [setEntry, getEntry, hs, h, ih]

theorem getEntry_append {α : Type} (ps qs : List (String × α)) (sym : String) :
    getEntry (ps ++ qs) sym =
      match getEntry ps sym with
      | some v => some v
      | none => getEntry qs sym := by
  induction ps with
  | nil => simp [getEntry]
  | cons e rest ih =>
    obtain ⟨s, w⟩ := e
    by_cases h : s = sym <;> simp [getEntry, h, ih]

theorem getEntry_ensurePos (ps : List (String × PosInfo)) (sym sym' : String) :
    (getEntry (ensurePos ps sym) sym').getD ⟨0, 0, 0⟩ =
      (getEntry ps sym').getD ⟨0, 0, 0⟩ := by
  unfold ensurePos
  cases h : getEntry ps sym with
  | some v => rfl
  | none =>
    rw [getEntry_append]
    cases h' : getEntry ps sym' with
    | some v => rfl
    | none =>
      by_cases hss : sym = sym' <;> simp [getEntry, hss]

theorem getEntry_ensurePos_self (ps : List (String × PosInfo)) (sym : String) :
    (getEntry (ensurePos ps sym) sym).isSome := by
  unfold ensurePos
  cases h : getEntry ps sym with
  | some v => simp [h]
  | none => rw [getEntry_append]; simp [h, getEntry]

/-! ### Sum lemmas for market values and cashflows -/

theorem sumMV_nil (px : String → ℚ) : sumMV [] px = 0 := rfl

theorem sumMV_cons (e : String × PosInfo) (l : List (String × PosInfo)) (px : String → ℚ) :
    sumMV (e :: l) px = (e.2.quantity : ℚ) * px e.1 + sumMV l px := by
  simp [sumMV]

theorem sumMV_append (l r : List (String × PosInfo)) (px : String → ℚ) :
    sumMV (l ++ r) px = sumMV l px + sumMV r px := by
  simp [sumMV]

theorem sumMV_setEntry (ps : List (String × PosInfo)) (sym : String) (v : PosInfo)
    (px : String → ℚ) :
    sumMV (setEntry ps sym v) px =
      sumMV ps px
        + ((v.quantity : ℚ) - (((getEntry ps sym).getD ⟨0, 0, 0⟩).quantity : ℚ)) * px sym := by
  induction ps with
  | nil => simp [setEntry, getEntry, sumMV]
  | cons e rest ih =>
    obtain ⟨s, w⟩ := e
    by_cases h : s = sym <;> simp [setEntry, getEntry, sumMV_cons, h, ih] <;> ring

theorem sumMV_ensurePos (ps : List (String × PosInfo)) (sym : String) (px : String → ℚ) :
    sumMV (ensurePos ps sym) px = sumMV ps px := by
  unfold ensurePos
  cases h : getEntry ps sym with
  | some v => rfl
  | none => rw [sumMV_append]; simp [sumMV_cons, sumMV_nil]

theorem netCashflow_append (ts : List TradeRec) (r : TradeRec) :
    netCashflow (ts ++ [r]) = netCashflow ts + recNetCashflow r := by
  simp [netCashflow]

theorem pmSumMV_cons (e : String × Position) (l : List (String × Position)) (px : String → ℚ) :
    pmSumMV (e :: l) px = (e.2.shares : ℚ) * px e.1 + pmSumMV l px := by
  simp [pmSumMV]

theorem pmSumMV_setEntry (ps : List (String × Position)) (sym : String) (v : Position)
    (px : String → ℚ) :
    pmSumMV (setEntry ps sym v) px =
      pmSumMV ps px
        + ((v.shares : ℚ) - (((getEntry ps sym).map Position.shares).getD 0 : ℚ)) * px sym := by
  induction ps with
  | nil => simp [setEntry, getEntry, pmSumMV]
  | cons e rest ih =>
    obtain ⟨s, w⟩ := e
    by_cases h : s = sym <;> simp [setEntry, getEntry, pmSumMV_cons, h, ih] <;> ring

theorem pmSumMV_delEntry (ps : List (String × Position)) (sym : String) (px : String → ℚ) :
    pmSumMV (delEntry ps sym) px =
      pmSumMV ps px - (((getEntry ps sym).map Position.shares).getD 0 : ℚ) * px sym := by
  induction ps with
  | nil => simp [delEntry, getEntry, pmSumMV]
  | cons e rest ih =>
    obtain ⟨s, w⟩ := e
    by_cases h : s = sym <;> simp [delEntry, getEntry, pmSumMV_cons, h, ih] <;> ring

theorem getEntry_delEntry_ne {α : Type} (ps : List (String × α)) (sym sym' : String)
    (h : sym ≠ sym') : getEntry (delEntry ps sym) sym' = getEntry ps sym' := by
  induction ps with
  | nil => simp [delEntry]
  | cons e rest ih =>
    obtain ⟨s, w⟩ := e
    by_cases hs : s = sym <;> simp [delEntry, getEntry, hs, h, ih]

/-! ### C1 — ledger conservation per fill -/

/-- C1: for every single executed fill against a ledger (a buy or sell in
`BacktestEngine._execute_single_trade`, or `PositionManager.buy_stock` /
`sell_stock`), with open positions valued at the fill price
(`px symbol = fill price`), cash plus the sum of position market values
changes exactly by the net cashflow derived independently from the fill:
for the engine, from the appended trade record (commission subtracted on
both buys and sells, stamp tax only on sells); for the position manager,
the fees of the fill (transaction cost on buys, commission plus stamp tax
on sells).  Total portfolio value never changes by direct assignment. -/
theorem ledger_conservation_per_fill :
    (∀ (p : EngineParams) (st : EngineState) (sig : Sig) (px : String → ℚ),
      px sig.symbol = sig.price →
        (executeSingleTrade p st sig).1.capital
            + sumMV (executeSingleTrade p st sig).1.positions px
          = st.capital + sumMV st.positions px
            + (netCashflow (executeSingleTrade p st sig).1.trades - netCashflow st.trades))
    ∧
    (∀ (st : PMState) (sym : String) (shares : ℤ) (price : ℚ) (now : ℤ) (px : String → ℚ),
      px sym = price →
        (buy_stock st sym shares price now).2.cash
            + pmSumMV (buy_stock st sym shares price now).2.positions px
          = st.cash + pmSumMV st.positions px
            - (if (buy_stock st sym shares price now).1
                then (shares : ℚ) * price * transaction_cost else 0))
    ∧
    (∀ (st : PMState) (sym : String) (shares : ℤ) (price : ℚ) (now : ℤ) (px : String → ℚ),
      px sym = price →
        (sell_stock st sym shares price now).2.cash
            + pmSumMV (sell_stock st sym shares price now).2.positions px
          = st.cash + pmSumMV st.positions px
            - (match getEntry st.positions sym with
              | none => 0
              | some position => ((min shares position.shares : ℤ) : ℚ) * price * (13/10000))) := by
  refine ⟨?_, ?_, ?_⟩
  · intro p st sig px hpx
    cases hty : sig.signal_type with
    | hold => simp [executeSingleTrade, hty, sumMV_ensurePos]
    | buy =>
      simp only [executeSingleTrade, hty]
      split_ifs with h1 h2
      · simp [sumMV_ensurePos]
      · simp only [buyFill]
        rw [sumMV_setEntry, sumMV_ensurePos, netCashflow_append]
        simp only [recNetCashflow]
        rw [hpx]
        push_cast
        ring
      · simp only [buyFill]
        rw [sumMV_setEntry, sumMV_ensurePos, netCashflow_append]
        simp only [recNetCashflow]
        rw [hpx]
        push_cast
        ring
    | sell =>
      simp only [executeSingleTrade, hty]
      split_ifs with h1 h2
      · simp [sumMV_ensurePos]
      · rw [sumMV_setEntry, sumMV_ensurePos, netCashflow_append]
        simp only [recNetCashflow]
        rw [hpx]
        push_cast
        ring
      · rw [sumMV_setEntry, sumMV_ensurePos, netCashflow_append]
        simp only [recNetCashflow]
        rw [hpx]
        push_cast
        ring
  · intro st sym shares price now px hpx
    by_cases h1 : (shares : ℚ) * price * (1 + transaction_cost) > st.cash
    · simp [buy_stock, if_pos h1]
    · cases hg : getEntry st.positions sym with
      | none =>
        simp only [buy_stock, if_neg h1, hg]
        rw [pmSumMV_setEntry, hg]
        simp only [Option.map_none', Option.getD_none, transaction_cost]
        rw [hpx]
        push_cast
        ring
      | some old =>
        simp only [buy_stock, if_neg h1, hg]
        rw [pmSumMV_setEntry, hg]
        simp only [Option.map_some', Option.getD_some, transaction_cost]
        rw [hpx]
        push_cast
        ring
  · intro st sym shares price now px hpx
    cases hg : getEntry st.positions sym with
    | none => simp [sell_stock, hg]
    | some position =>
      by_cases h1 : shares > position.shares
      · simp only [sell_stock, hg, if_pos h1, sub_self, gt_iff_lt, lt_self_iff_false,
          if_false]
        rw [pmSumMV_delEntry, hg]
        simp only [Option.map_some', Option.getD_some]
        rw [hpx, min_eq_right h1.le]
        push_cast
        ring
      · by_cases h2 : position.shares - shares > 0
        · simp only [sell_stock, hg, if_neg h1, if_pos h2]
          rw [pmSumMV_setEntry, hg]
          simp only [Option.map_some', Option.getD_some]
          rw [hpx, min_eq_left (not_lt.mp h1)]
          push_cast
          ring
        · have hs : shares = position.shares := by
            have h1' := not_lt.mp h1
            have h2' := not_lt.mp h2
            omega
          simp only [sell_stock, hg, if_neg h1, if_neg h2]
          rw [pmSumMV_delEntry, hg]
          simp only [Option.map_some', Option.getD_some]
          rw [hpx, min_eq_left (not_lt.mp h1), hs]
          push_cast
          ring

/-- Witness for C1: concrete fills — an engine buy of 1,000 @ 10.00 from
capital 100,000 and a manager sell clamp — with all positions valued at the
fill price. -/
theorem ledger_conservation_per_fill_witness :
    ((fun _ : String => (10 : ℚ)) "600000" = (10 : ℚ)) ∧
    ((executeSingleTrade defaultEngineParams (initialState 100000)
          ⟨"600000", .buy, 10, 1000, 0, 1, ""⟩).1.capital
        + sumMV (executeSingleTrade defaultEngineParams (initialState 100000)
            ⟨"600000", .buy, 10, 1000, 0, 1, ""⟩).1.positions (fun _ => 10)
      = (initialState 100000).capital + sumMV (initialState 100000).positions (fun _ => 10)
        + (netCashflow (executeSingleTrade defaultEngineParams (initialState 100000)
              ⟨"600000", .buy, 10, 1000, 0, 1, ""⟩).1.trades
            - netCashflow (initialState 100000).trades)) ∧
    ((buy_stock ⟨100000, []⟩ "600000" 1000 10 0).2.cash
        + pmSumMV (buy_stock ⟨100000, []⟩ "600000" 1000 10 0).2.positions (fun _ => 10)
      = (100000 : ℚ) + pmSumMV [] (fun _ => 10)
        - (if (buy_stock ⟨100000, []⟩ "600000" 1000 10 0).1
            then (1000 : ℚ) * 10 * transaction_cost else 0)) :=
  ⟨rfl,
    ledger_conservation_per_fill.1 defaultEngineParams (initialState 100000)
      ⟨"600000", .buy, 10, 1000, 0, 1, ""⟩ (fun _ => 10) rfl,
    ledger_conservation_per_fill.2.1 ⟨100000, []⟩ "600000" 1000 10 0 (fun _ => 10) rfl⟩

/-! ### C2 — basic round trip scenario -/

/-- C2: with initial capital 100,000, commission 0.0003 and stamp tax 0.001, a
BUY of 1,000 @ 10.00 leaves cash exactly 89,997.00 and average cost 10.00;
selling all 1,000 @ 11.00 then records gross 11,000, commission 3.30, stamp
tax 11.00, net proceeds 10,985.70, realized P&L 985.70, and final cash
100,982.70. -/
theorem basic_round_trip :
    (executeSingleTrade defaultEngineParams (initialState 100000)
        ⟨"600000", .buy, 10, 1000, 0, 1, ""⟩).1.capital = 89997 ∧
    ((executeSingleTrade defaultEngineParams (initialState 100000)
        ⟨"600000", .buy, 10, 1000, 0, 1, ""⟩).1.holding "600000").avg_price = 10 ∧
    (executeSingleTrade defaultEngineParams
        (executeSingleTrade defaultEngineParams (initialState 100000)
            ⟨"600000", .buy, 10, 1000, 0, 1, ""⟩).1
        ⟨"600000", .sell, 11, 1000, 1, 1, ""⟩).1.trades
      = [TradeRec.buyRec 0 "600000" 1000 10 10000 3 10003 89997,
          TradeRec.sellRec 1 "600000" 1000 11 11000 3.30 11 14.30 10985.70 985.70 100982.70] ∧
    (executeSingleTrade defaultEngineParams
        (executeSingleTrade defaultEngineParams (initialState 100000)
            ⟨"600000", .buy, 10, 1000, 0, 1, ""⟩).1
        ⟨"600000", .sell, 11, 1000, 1, 1, ""⟩).1.capital = 100982.70 := by
  norm_num [executeSingleTrade, buyFill, ensurePos, getEntry, setEntry, initialState,
    defaultEngineParams, EngineState.holding]

/-! ### C3 — insufficient-funds downsizing -/

/-- C3: a BUY whose `trade_amount + commission` exceeds available cash is not
rejected: the engine downsizes the quantity to
`floor(0.95 × cash / (price × (1 + commission_rate)))` rounded down to the
nearest `min_trade_unit` lot; if the downsized quantity is below one lot the
signal is dropped with cash, trade log and positions unchanged, otherwise the
downsized quantity is filled. -/
theorem insufficient_funds_downsizing
    (p : EngineParams) (st : EngineState) (sig : Sig)
    (hty : sig.signal_type = .buy)
    (hcash : sig.price * (sig.quantity : ℚ) + sig.price * (sig.quantity : ℚ) * p.commission_rate
      > st.capital)
    (hcap : 0 ≤ st.capital) (hpr : 0 < sig.price) (hcr : 0 ≤ p.commission_rate) :
    ((⌊(95/100 : ℚ) * st.capital / (sig.price * (1 + p.commission_rate))⌋.fdiv p.min_trade_unit)
          * p.min_trade_unit < p.min_trade_unit →
      (executeSingleTrade p st sig).1.capital = st.capital ∧
      (executeSingleTrade p st sig).1.trades = st.trades ∧
      ∀ s, (executeSingleTrade p st sig).1.holding s = st.holding s) ∧
    (∀ q : ℤ,
      q = (⌊(95/100 : ℚ) * st.capital / (sig.price * (1 + p.commission_rate))⌋.fdiv
          p.min_trade_unit) * p.min_trade_unit →
      ¬ q < p.min_trade_unit →
      (executeSingleTrade p st sig).1.trades
          = st.trades ++ [TradeRec.buyRec sig.timestamp sig.symbol q sig.price
              (sig.price * (q : ℚ)) (sig.price * (q : ℚ) * p.commission_rate)
              (sig.price * (q : ℚ) + sig.price * (q : ℚ) * p.commission_rate)
              (st.capital
                - (sig.price * (q : ℚ) + sig.price * (q : ℚ) * p.commission_rate))] ∧
      ((executeSingleTrade p st sig).1.holding sig.symbol).quantity
          = (st.holding sig.symbol).quantity + q ∧
      (executeSingleTrade p st sig).1.capital
          = st.capital - (sig.price * (q : ℚ) + sig.price * (q : ℚ) * p.commission_rate)) := by
  have hden : 0 < sig.price * (1 + p.commission_rate) := by
    have : (0 : ℚ) < 1 + p.commission_rate := by linarith
    exact mul_pos hpr this
  have hx : 0 ≤ st.capital * (95/100) / (sig.price * (1 + p.commission_rate)) :=
    div_nonneg (by linarith) hden.le
  have hnum : st.capital * (95/100) / (sig.price * (1 + p.commission_rate))
      = (95/100 : ℚ) * st.capital / (sig.price * (1 + p.commission_rate)) := by ring
  have hpy : pyInt (st.capital * (95/100) / (sig.price * (1 + p.commission_rate)))
      = ⌊(95/100 : ℚ) * st.capital / (sig.price * (1 + p.commission_rate))⌋ := by
    rw [pyInt, if_pos hx, hnum]
  constructor
  · intro hlt
    simp only [executeSingleTrade, hty, hpy]
    rw [if_pos hcash, if_pos hlt]
    refine ⟨rfl, rfl, ?_⟩
    intro s
    simp only [EngineState.holding]
    exact getEntry_ensurePos st.positions sig.symbol s
  · intro q hq hge
    subst hq
    simp only [executeSingleTrade, hty, hpy]
    rw [if_pos hcash, if_neg hge]
    simp only [buyFill]
    refine ⟨by trivial, ?_, by trivial⟩
    simp only [EngineState.holding, getEntry_setEntry_self, Option.getD_some]
    rw [getEntry_ensurePos st.positions sig.symbol sig.symbol]

/-- Witness for C3, the spec's scenario: cash 1,000, attempted buy of 500 @
10.00; the downsized quantity is 0, below one lot, so the signal is dropped
with cash and trade log unchanged. -/
theorem insufficient_funds_downsizing_witness :
    ((10 : ℚ) * 500 + 10 * 500 * (3/10000) > 1000) ∧
    (executeSingleTrade defaultEngineParams (initialState 1000)
        ⟨"600000", .buy, 10, 500, 0, 1, ""⟩).1.capital = 1000 ∧
    (executeSingleTrade defaultEngineParams (initialState 1000)
        ⟨"600000", .buy, 10, 500, 0, 1, ""⟩).1.trades = [] := by
  have h := (insufficient_funds_downsizing defaultEngineParams (initialState 1000)
      ⟨"600000", .buy, 10, 500, 0, 1, ""⟩ rfl
      (by norm_num [defaultEngineParams, initialState])
      (by norm_num [initialState]) (by norm_num) (by norm_num [defaultEngineParams])).1
    (by norm_num [defaultEngineParams, initialState]; decide)
  exact ⟨by norm_num, h.1, h.2.1⟩

/-! ### C4 — sell clamping, zero-holdings no-op, no oversell -/

theorem getEntry_none_of_not_mem_keys {α : Type} (ps : List (String × α)) (sym : String)
    (h : sym ∉ ps.map Prod.fst) : getEntry ps sym = none := by
  induction ps with
  | nil => rfl
  | cons e rest ih =>
    obtain ⟨s, w⟩ := e
    simp only [List.map_cons, List.mem_cons] at h
    push_neg at h
    have hs' : s ≠ sym := fun hs => h.1 hs.symm
    simp [getEntry, hs', ih h.2]

theorem getEntry_delEntry_self {α : Type} (ps : List (String × α)) (sym : String)
    (hnd : (ps.map Prod.fst).Nodup) : getEntry (delEntry ps sym) sym = none := by
  induction ps with
  | nil => rfl
  | cons e rest ih =>
    obtain ⟨s, w⟩ := e
    simp only [List.map_cons, List.nodup_cons] at hnd
    by_cases hs : s = sym
    · subst hs
      simpa [delEntry] using getEntry_none_of_not_mem_keys rest s hnd.1
    · simp [delEntry, getEntry, hs, ih hnd.2]

/-- C4: for every SELL the filled quantity is `min(requested, held)`: selling
more than held is clamped, a sell against zero holdings is a no-op leaving
cash, trade log and holdings unchanged, and after any SELL the position's
share count stays non-negative.  Holds for the engine's
`_execute_single_trade` and for `PositionManager.sell_stock` (where "zero
held" is "no position", which returns `False` and leaves the state
untouched). -/
theorem sell_clamping_no_oversell :
    (∀ (p : EngineParams) (st : EngineState) (sig : Sig),
      sig.signal_type = .sell →
      ((min sig.quantity (st.holding sig.symbol).quantity = 0 →
          (executeSingleTrade p st sig).1.capital = st.capital ∧
          (executeSingleTrade p st sig).1.trades = st.trades ∧
          ∀ s, (executeSingleTrade p st sig).1.holding s = st.holding s) ∧
        (min sig.quantity (st.holding sig.symbol).quantity ≠ 0 →
          ((executeSingleTrade p st sig).1.trades.drop st.trades.length).map TradeRec.quantity
              = [min sig.quantity (st.holding sig.symbol).quantity] ∧
          ((executeSingleTrade p st sig).1.holding sig.symbol).quantity
              = (st.holding sig.symbol).quantity
                - min sig.quantity (st.holding sig.symbol).quantity) ∧
        (0 ≤ (st.holding sig.symbol).quantity →
          0 ≤ ((executeSingleTrade p st sig).1.holding sig.symbol).quantity)))
    ∧
    (∀ (st : PMState) (sym : String) (shares : ℤ) (price : ℚ) (now : ℤ),
      (st.positions.map Prod.fst).Nodup →
      ((getEntry st.positions sym = none → sell_stock st sym shares price now = (false, st)) ∧
        (∀ position, getEntry st.positions sym = some position →
          (sell_stock st sym shares price now).2.shares sym
              = position.shares - min shares position.shares ∧
          (0 ≤ position.shares →
            0 ≤ (sell_stock st sym shares price now).2.shares sym)))) := by
  constructor
  · intro p st sig hty
    have hpos := getEntry_ensurePos st.positions sig.symbol sig.symbol
    have hold : ∀ s, (EngineState.holding { st with positions := ensurePos st.positions sig.symbol } s)
        = st.holding s := by
      intro s
      simp only [EngineState.holding]
      exact getEntry_ensurePos st.positions sig.symbol s
    refine ⟨?_, ?_, ?_⟩
    · intro hmin
      simp only [executeSingleTrade, hty, EngineState.holding] at hmin ⊢
      rw [hpos, if_pos hmin]
      exact ⟨rfl, rfl, fun s => getEntry_ensurePos st.positions sig.symbol s⟩
    · intro hmin
      simp only [executeSingleTrade, hty, EngineState.holding] at hmin ⊢
      rw [hpos, if_neg hmin]
      constructor
      · simp [List.drop_left, TradeRec.quantity]
      · simp only [getEntry_setEntry_self, Option.getD_some]
        split <;> simp
    · intro hq
      by_cases hmin : min sig.quantity (st.holding sig.symbol).quantity = 0
      · simp only [executeSingleTrade, hty, EngineState.holding] at hmin ⊢
        rw [hpos, if_pos hmin, getEntry_ensurePos st.positions sig.symbol sig.symbol]
        exact hq
      · have hb : ((executeSingleTrade p st sig).1.holding sig.symbol).quantity
            = (st.holding sig.symbol).quantity
              - min sig.quantity (st.holding sig.symbol).quantity := by
          simp only [executeSingleTrade, hty, EngineState.holding] at hmin ⊢
          rw [hpos, if_neg hmin]
          simp only [getEntry_setEntry_self, Option.getD_some]
          split <;> rfl
        have hle := min_le_right sig.quantity (st.holding sig.symbol).quantity
        omega
  · intro st sym shares price now hnd
    constructor
    · intro hg
      simp [sell_stock, hg]
    · intro position hg
      by_cases h1 : shares > position.shares
      · have hrem : ¬ position.shares - position.shares > 0 := by omega
        simp only [sell_stock, hg, if_pos h1, if_neg hrem, PMState.shares]
        rw [getEntry_delEntry_self st.positions sym hnd]
        simp [min_eq_right h1.le]
      · by_cases h2 : position.shares - shares > 0
        · simp only [sell_stock, hg, if_neg h1, if_pos h2, PMState.shares]
          rw [getEntry_setEntry_self]
          simp only [Option.map_some', Option.getD_some]
          rw [min_eq_left (not_lt.mp h1)]
          exact ⟨rfl, fun _ => by omega⟩
        · simp only [sell_stock, hg, if_neg h1, if_neg h2, PMState.shares]
          rw [getEntry_delEntry_self st.positions sym hnd]
          simp only [Option.map_none', Option.getD_none]
          rw [min_eq_left (not_lt.mp h1)]
          constructor
          · omega
          · intro _; omega

/-- Witness for C4: a sell against empty holdings is a no-op in the engine,
and `sell_stock` clamps a request of 2,000 shares to the 1,000 held. -/
theorem sell_clamping_no_oversell_witness :
    (Sig.signal_type ⟨"600000", .sell, 10, 100, 0, 1, ""⟩ = SigType.sell) ∧
    (executeSingleTrade defaultEngineParams (initialState 100000)
        ⟨"600000", .sell, 10, 100, 0, 1, ""⟩).1.trades = [] ∧
    ((sell_stock ⟨0, [("600000", ⟨"600000", 1000, 10, 10, 10000, 0, 0, 0, 0⟩)]⟩
        "600000" 2000 10 0).2.shares "600000" = 1000 - min 2000 1000) := by
  have h1 := ((sell_clamping_no_oversell.1 defaultEngineParams (initialState 100000)
      ⟨"600000", .sell, 10, 100, 0, 1, ""⟩ rfl).1 (by decide)).2.1
  have h2 := ((sell_clamping_no_oversell.2 ⟨0, [("600000", ⟨"600000", 1000, 10, 10, 10000, 0, 0, 0, 0⟩)]⟩
      "600000" 2000 10 0 (by decide)).2 ⟨"600000", 1000, 10, 10, 10000, 0, 0, 0, 0⟩ (by decide)).1
  exact ⟨rfl, h1, h2⟩

/-! ### C5 — lot rounding -/

/-- C5 counterexample: a BUY of 150 shares @ 10.00 with ample cash fills all
150 shares — the recorded fill quantity is not a multiple of the 100-share
`min_trade_unit` — and `calculate_position_size` likewise returns the
un-rounded 2,247 shares; the claimed universal lot rounding fails. -/
theorem lot_rounding_violated :
    (executeSingleTrade defaultEngineParams (initialState 100000)
        ⟨"600000", .buy, 10, 150, 0, 1, ""⟩).1.trades
      = [TradeRec.buyRec 0 "600000" 150 10 1500 0.45 1500.45 98499.55] ∧
    ¬ (150 : ℤ) % 100 = 0 ∧
    calculate_position_size defaultPMConfig ⟨100000, []⟩ "600000" 1 10 = 2247 ∧
    ¬ (2247 : ℤ) % 100 = 0 := by
  refine ⟨?_, by decide, ?_, by decide⟩
  · norm_num [executeSingleTrade, buyFill, ensurePos, getEntry, setEntry, initialState,
      defaultEngineParams]
  · norm_num [calculate_position_size, defaultPMConfig, pmStoredMV, getEntry, pyInt,
      transaction_cost]

/-- C5 amended: lot rounding is applied only on the insufficient-funds
downsizing path, where the filled quantity is always an exact multiple of
`min_trade_unit`; a BUY whose cost fits the available cash fills the signal's
raw quantity unchanged, and a SELL fills `min(requested, held)`, neither
rounded to lots (`PositionManager.calculate_position_size` performs no lot
rounding either). -/
theorem lot_rounding_only_when_downsized
    (p : EngineParams) (st : EngineState) (sig : Sig) :
    (sig.signal_type = .buy →
      sig.price * (sig.quantity : ℚ) + sig.price * (sig.quantity : ℚ) * p.commission_rate
          > st.capital →
      ∀ r ∈ (executeSingleTrade p st sig).1.trades.drop st.trades.length,
        TradeRec.quantity r % p.min_trade_unit = 0) ∧
    (sig.signal_type = .buy →
      ¬ (sig.price * (sig.quantity : ℚ) + sig.price * (sig.quantity : ℚ) * p.commission_rate
          > st.capital) →
      ((executeSingleTrade p st sig).1.trades.drop st.trades.length).map TradeRec.quantity
          = [sig.quantity]) ∧
    (sig.signal_type = .sell →
      ∀ r ∈ (executeSingleTrade p st sig).1.trades.drop st.trades.length,
        TradeRec.quantity r = min sig.quantity (st.holding sig.symbol).quantity) := by
  refine ⟨?_, ?_, ?_⟩
  · intro hty hcash r hr
    simp only [executeSingleTrade, hty] at hr
    rw [if_pos hcash] at hr
    split_ifs at hr with h2
    · simp [List.drop_length] at hr
    · simp only [buyFill, List.drop_left] at hr
      simp only [List.mem_singleton] at hr
      subst hr
      simp only [TradeRec.quantity]
      exact Int.mul_emod_left _ _
  · intro hty hcash
    simp only [executeSingleTrade, hty]
    rw [if_neg hcash]
    simp [buyFill, List.drop_left, TradeRec.quantity]
  · intro hty r hr
    have hpos := getEntry_ensurePos st.positions sig.symbol sig.symbol
    simp only [executeSingleTrade, hty, hpos] at hr
    split_ifs at hr with h1
    · simp [List.drop_length] at hr
    all_goals
      simp only [List.drop_left, List.mem_singleton] at hr
      subst hr
      simp [TradeRec.quantity, EngineState.holding]

/-- Witness for C5 (amended): with capital 5,000 a BUY of 1,000 @ 10.00 is
downsized; the recorded fill of 400 shares is a multiple of the lot size. -/
theorem lot_rounding_only_when_downsized_witness :
    ((10 : ℚ) * 1000 + 10 * 1000 * defaultEngineParams.commission_rate
        > (initialState 5000).capital) ∧
    (∀ r ∈ (executeSingleTrade defaultEngineParams (initialState 5000)
        ⟨"600000", .buy, 10, 1000, 0, 1, ""⟩).1.trades.drop (initialState 5000).trades.length,
      TradeRec.quantity r % defaultEngineParams.min_trade_unit = 0) :=
  ⟨by norm_num [defaultEngineParams, initialState],
    (lot_rounding_only_when_downsized defaultEngineParams (initialState 5000)
        ⟨"600000", .buy, 10, 1000, 0, 1, ""⟩).1 rfl
      (by norm_num [defaultEngineParams, initialState])⟩

/-! ### C7 — Signal immutability -/

/-- C7 counterexample: with capital 5,000, executing a BUY signal of 1,000 @
10.00 leaves the signal object's `quantity` field at 400 after the call
(line 207 assigns `signal.quantity = adjusted_quantity` in place) — the
Signal is mutated, not replaced. -/
theorem signal_mutated_in_place :
    ((executeSingleTrade defaultEngineParams (initialState 5000)
        ⟨"600000", .buy, 10, 1000, 0, 1, ""⟩).2).quantity = 400 ∧
    Sig.quantity ⟨"600000", .buy, 10, 1000, 0, 1, ""⟩ = 1000 ∧
    (400 : ℤ) ≠ 1000 := by
  refine ⟨?_, rfl, by decide⟩
  norm_num [executeSingleTrade, buyFill, ensurePos, getEntry, setEntry, initialState,
    defaultEngineParams, pyInt]
  decide

/-- C7 amended: the engine may rewrite the `quantity` field of the Signal it
executes (insufficient-funds downsizing assigns to it in place); every other
field — symbol, side, price, timestamp, confidence, reason — is left exactly
as created. -/
theorem signal_rewrite_limited_to_quantity (p : EngineParams) (st : EngineState) (sig : Sig) :
    (executeSingleTrade p st sig).2.symbol = sig.symbol ∧
    (executeSingleTrade p st sig).2.signal_type = sig.signal_type ∧
    (executeSingleTrade p st sig).2.price = sig.price ∧
    (executeSingleTrade p st sig).2.timestamp = sig.timestamp ∧
    (executeSingleTrade p st sig).2.confidence = sig.confidence ∧
    (executeSingleTrade p st sig).2.reason = sig.reason := by
  cases hty : sig.signal_type with
  | buy =>
    simp only [executeSingleTrade, hty]
    split_ifs <;> simp [hty]
  | sell =>
    simp only [executeSingleTrade, hty]
    split_ifs <;> simp [hty]
  | hold => simp [executeSingleTrade, hty]

/-! ### C9 — risk control actions -/

theorem mem_riskActions_cons (cfg : PMConfig) (prices : List (String × ℚ))
    (e : String × Position) (rest : List (String × Position)) (a : String × String × ℤ)
    (h : a ∈ riskActions cfg prices rest) : a ∈ riskActions cfg prices (e :: rest) := by
  obtain ⟨s, w⟩ := e
  simp only [riskActions]
  cases hg : getEntry prices s with
  | none => exact h
  | some cp =>
    by_cases h1 : (cp - w.avg_cost) / w.avg_cost ≤ -cfg.stop_loss
    · simp [h1, h]
    · by_cases h2 : (cp - w.avg_cost) / w.avg_cost ≥ cfg.take_profit
      · by_cases h3 : w.shares.fdiv 2 > 0 <;> simp [h1, h2, h3, h]
      · simp [h1, h2, h]

/-- C9 counterexample: a position holding a single share with avg_cost 10.00
and current price 12.00 is 20% in profit — at or above the default 15%
take-profit — yet `check_risk_control` emits no action at all, because
`shares // 2 = 0` is filtered out; the claimed universal half-liquidation
emission fails. -/
theorem take_profit_one_share_emits_nothing :
    ((12 : ℚ) - 10) / 10 ≥ defaultPMConfig.take_profit ∧
    (check_risk_control defaultPMConfig
        ⟨0, [("600000", ⟨"600000", 1, 10, 12, 12, 2, 1/5, 0, 0⟩)]⟩
        [("600000", 12)]).1 = [] := by
  constructor
  · norm_num [defaultPMConfig]
  · norm_num [check_risk_control, riskActions, getEntry, defaultPMConfig]
    decide

/-- C9 amended: for every held position with a quoted price, the risk check
emits a full-liquidation action (all held shares) when the unrealized P&L
percentage is ≤ −stop_loss_pct, and a half-liquidation action of
`shares // 2` when the stop-loss did not fire and the percentage is
≥ +take_profit_pct — provided `shares // 2` is at least one share (a one-share
position emits nothing on take-profit); the check itself never modifies cash
or positions.  The spec's stop-loss scenario (avg_cost 10.00, price 9.15,
stop 8%) is the witness. -/
theorem risk_control_actions (cfg : PMConfig) (st : PMState) (prices : List (String × ℚ))
    (sym : String) (position : Position) (cp : ℚ)
    (hmem : (sym, position) ∈ st.positions) (hpr : getEntry prices sym = some cp) :
    (((cp - position.avg_cost) / position.avg_cost ≤ -cfg.stop_loss →
        (sym, "sell", position.shares) ∈ (check_risk_control cfg st prices).1) ∧
      (¬ ((cp - position.avg_cost) / position.avg_cost ≤ -cfg.stop_loss) →
        (cp - position.avg_cost) / position.avg_cost ≥ cfg.take_profit →
        position.shares.fdiv 2 > 0 →
        (sym, "sell", position.shares.fdiv 2) ∈ (check_risk_control cfg st prices).1)) ∧
    (check_risk_control cfg st prices).2 = st := by
  refine ⟨⟨?_, ?_⟩, rfl⟩
  · intro hstop
    simp only [check_risk_control]
    revert hmem
    generalize st.positions = ps
    intro hmem
    induction ps with
    | nil => cases hmem
    | cons e rest ih =>
      rcases List.mem_cons.mp hmem with he | hrest
      · obtain ⟨s, w⟩ := e
        rw [Prod.mk.injEq] at he
        obtain ⟨hs, hw⟩ := he
        subst hs; subst hw
        simp only [riskActions, hpr, if_pos hstop]
        exact List.mem_cons_self _ _
      · exact mem_riskActions_cons cfg prices e rest _ (ih hrest)
  · intro hnstop htake hhalf
    simp only [check_risk_control]
    revert hmem
    generalize st.positions = ps
    intro hmem
    induction ps with
    | nil => cases hmem
    | cons e rest ih =>
      rcases List.mem_cons.mp hmem with he | hrest
      · obtain ⟨s, w⟩ := e
        rw [Prod.mk.injEq] at he
        obtain ⟨hs, hw⟩ := he
        subst hs; subst hw
        simp only [riskActions, hpr, if_neg hnstop, if_pos htake, if_pos hhalf]
        exact List.mem_cons_self _ _
      · exact mem_riskActions_cons cfg prices e rest _ (ih hrest)

/-- Witness for C9 (amended), the spec's stop-loss scenario: a 1,000-share
position with avg_cost 10.00 at current price 9.15 (−8.5%) triggers a
full-liquidation action with the default 8% stop-loss. -/
theorem risk_control_actions_witness :
    (("600000", ⟨"600000", 1000, 10, 10, 10000, 0, 0, 0, 0⟩) ∈
      ([("600000", (⟨"600000", 1000, 10, 10, 10000, 0, 0, 0, 0⟩ : Position))] :
        List (String × Position))) ∧
    (((9.15 : ℚ) - 10) / 10 ≤ -defaultPMConfig.stop_loss) ∧
    ("600000", "sell", (1000 : ℤ)) ∈
      (check_risk_control defaultPMConfig
        ⟨0, [("600000", ⟨"600000", 1000, 10, 10, 10000, 0, 0, 0, 0⟩)]⟩
        [("600000", 9.15)]).1 :=
  ⟨List.mem_singleton.mpr rfl, by norm_num [defaultPMConfig],
    (risk_control_actions defaultPMConfig
        ⟨0, [("600000", ⟨"600000", 1000, 10, 10, 10000, 0, 0, 0, 0⟩)]⟩
        [("600000", 9.15)] "600000" ⟨"600000", 1000, 10, 10, 10000, 0, 0, 0, 0⟩ 9.15
        (List.mem_singleton.mpr rfl) (by simp [getEntry])).1.1
      (by norm_num [defaultPMConfig])⟩

/-! ### C8 — weighted-average signal combination -/

theorem wac_foldl (weights : List (String × ℚ)) (signals : List StratSignal) :
    ∀ a : ℚ × ℚ × ℚ,
      signals.foldl (wacStep weights) a
        = (a.1 + buyMass weights signals, a.2.1 + sellMass weights signals,
            a.2.2 + totalMass weights signals) := by
  induction signals with
  | nil => intro a; simp [buyMass, sellMass, totalMass]
  | cons s rest ih =>
    intro a
    rw [List.foldl_cons, ih]
    have hbm : buyMass weights (s :: rest)
        = (if 0 < weightOf weights s ∧ s.signal_type = "BUY"
            then weightOf weights s * s.strength else 0) + buyMass weights rest := by
      simp [buyMass]
    have hsm : sellMass weights (s :: rest)
        = (if 0 < weightOf weights s ∧ s.signal_type = "SELL"
            then weightOf weights s * s.strength else 0) + sellMass weights rest := by
      simp [sellMass]
    have htm : totalMass weights (s :: rest)
        = (if 0 < weightOf weights s then weightOf weights s else 0)
            + totalMass weights rest := by
      simp [totalMass]
    rw [hbm, hsm, htm]
    simp only [wacStep, weightOf]
    have hbs : ("BUY" : String) ≠ "SELL" := by decide
    have hsb : ("SELL" : String) ≠ "BUY" := by decide
    by_cases hw : (getEntry weights s.strategy_name).getD 0 ≤ 0
    · have h1 : ¬ 0 < (getEntry weights s.strategy_name).getD 0 := not_lt.mpr hw
      simp only [if_pos hw, h1, false_and, if_neg, if_false, Prod.mk.injEq]
      refine ⟨by ring, by ring, by ring⟩
    · have h1 : 0 < (getEntry weights s.strategy_name).getD 0 := not_le.mp hw
      by_cases hb : s.signal_type = "BUY"
      · simp only [if_neg hw, if_pos hb, if_pos h1, h1, hb, true_and, hbs, and_false,
          if_false, if_true, Prod.mk.injEq]
        refine ⟨by ring, by ring, by ring⟩
      · by_cases hs : s.signal_type = "SELL"
        · simp only [if_neg hw, if_neg hb, if_pos hs, h1, hb, hs, hsb, true_and, and_false,
            and_true, if_false, if_true, if_pos h1, Prod.mk.injEq]
          refine ⟨by ring, by ring, by ring⟩
        · simp only [if_neg hw, if_neg hb, if_neg hs, h1, hb, hs, true_and, and_false,
            if_false, if_true, if_pos h1, Prod.mk.injEq]
          refine ⟨by ring, by ring, by ring⟩

/-- C8 counterexample: two strategies with weights 0.6 and 0.4 emit BUY
strength 1.0 and SELL strength 1.0; net = 0.2.  With the claimed
`signal_threshold = 0.3`, no combined signal should be emitted — but
`_weighted_average_combination` consults no threshold parameter at all (its
cutoff is the hard-coded 0.1) and emits a BUY with confidence 0.4 anyway. -/
theorem weighted_combination_threshold_violated :
    weightedAverageCombination [("double_ma", 0.6), ("rsi", 0.4)] "600000"
        [⟨"double_ma", "BUY", 1⟩, ⟨"rsi", "SELL", 1⟩]
      = some ⟨"600000", "BUY", 0.2, 0.4⟩ ∧
    (0.2 : ℚ) < 0.3 := by
  constructor
  · rw [weightedAverageCombination, wac_foldl]
    simp only [buyMass, sellMass, totalMass, weightOf, getEntry, List.map_cons, List.map_nil,
      List.sum_cons, List.sum_nil]
    simp
    norm_num
    rw [show |(1 : ℚ)/5| = 1/5 from abs_of_pos (by norm_num)]
    norm_num [min_def]
  · norm_num

/-- C8 amended: `_weighted_average_combination` computes the *normalized* net
`(Σ weight×strength over BUY − Σ weight×strength over SELL) / Σ weight`
over positively weighted signals; when the total weight is 0 it returns
`None`, and otherwise it always returns a `CombinedSignal` — BUY if
net > 0.1, SELL if net < −0.1, and an explicit HOLD record (strength 0)
in between, so HOLD is materialized — with strength `min(|net|, 1)` on
BUY/SELL and confidence `min(2·|net|, 1)`.  The configured
`signal_threshold` plays no role. -/
theorem weighted_average_combination_behavior
    (weights : List (String × ℚ)) (symbol : String) (signals : List StratSignal) :
    (totalMass weights signals = 0 →
      weightedAverageCombination weights symbol signals = none) ∧
    (totalMass weights signals ≠ 0 →
      weightedAverageCombination weights symbol signals
        = some { symbol := symbol
                 signal_type :=
                   if netOf weights signals > 1/10 then "BUY"
                   else if netOf weights signals < -(1/10) then "SELL" else "HOLD"
                 combined_strength :=
                   if netOf weights signals > 1/10 then min (netOf weights signals) 1
                   else if netOf weights signals < -(1/10) then min |netOf weights signals| 1
                   else 0
                 confidence := min (|netOf weights signals| * 2) 1 }) := by
  constructor
  · intro h0
    rw [weightedAverageCombination, wac_foldl]
    simp [h0]
  · intro h0
    rw [weightedAverageCombination, wac_foldl]
    simp only [zero_add]
    rw [if_neg h0]
    have hnet : (buyMass weights signals - sellMass weights signals) / totalMass weights signals
        = netOf weights signals := rfl
    rw [hnet]
    split_ifs with hb hs
    · rfl
    · rfl
    · rfl

/-- Witness for C8 (amended), the spec's scenario at threshold-free reality:
weights 0.6/0.4, BUY 1.0 vs SELL 1.0 — total weight 1 ≠ 0, and the combiner
emits BUY with strength 0.2 and confidence 0.4. -/
theorem weighted_average_combination_behavior_witness :
    totalMass [("double_ma", (0.6 : ℚ)), ("rsi", 0.4)]
        [⟨"double_ma", "BUY", 1⟩, ⟨"rsi", "SELL", 1⟩] ≠ 0 ∧
    weightedAverageCombination [("double_ma", 0.6), ("rsi", 0.4)] "000001"
        [⟨"double_ma", "BUY", 1⟩, ⟨"rsi", "SELL", 1⟩]
      = some ⟨"000001", "BUY", 0.2, 0.4⟩ := by
  have h0 : totalMass [("double_ma", (0.6 : ℚ)), ("rsi", 0.4)]
      [⟨"double_ma", "BUY", 1⟩, ⟨"rsi", "SELL", 1⟩] ≠ 0 := by
    simp only [totalMass, weightOf, getEntry, List.map_cons, List.map_nil, List.sum_cons,
      List.sum_nil]
    simp
    norm_num
  have hnet : netOf [("double_ma", (0.6 : ℚ)), ("rsi", 0.4)]
      [⟨"double_ma", "BUY", 1⟩, ⟨"rsi", "SELL", 1⟩] = 1/5 := by
    simp only [netOf, buyMass, sellMass, totalMass, weightOf, getEntry, List.map_cons,
      List.map_nil, List.sum_cons, List.sum_nil]
    simp
    norm_num
  refine ⟨h0, ?_⟩
  rw [(weighted_average_combination_behavior [("double_ma", 0.6), ("rsi", 0.4)] "000001"
      [⟨"double_ma", "BUY", 1⟩, ⟨"rsi", "SELL", 1⟩]).2 h0, hnet]
  rw [show |(1 : ℚ)/5| = 1/5 from abs_of_pos (by norm_num)]
  norm_num [min_def]

/-! ### C6 — global signal ordering -/

theorem pairwise_orderedInsert_stable (f : Sig → ℕ) (x : Sig) (l : List Sig)
    (hs : l.Sorted sigLE)
    (hp : l.Pairwise (fun a b => a.timestamp < b.timestamp ∨
        (a.timestamp = b.timestamp ∧ f a ≤ f b)))
    (hx : ∀ y ∈ l, f x ≤ f y) :
    (l.orderedInsert sigLE x).Pairwise (fun a b => a.timestamp < b.timestamp ∨
      (a.timestamp = b.timestamp ∧ f a ≤ f b)) := by
  induction l with
  | nil => simp
  | cons y ys ih =>
    rw [List.orderedInsert]
    by_cases hxy : sigLE x y
    · rw [if_pos hxy]
      refine List.Pairwise.cons ?_ hp
      intro z hz
      have hts : x.timestamp ≤ z.timestamp := by
        rcases List.mem_cons.mp hz with rfl | hz'
        · exact hxy
        · exact le_trans hxy ((List.sorted_cons.mp hs).1 z hz')
      rcases lt_or_eq_of_le hts with h | h
      · exact Or.inl h
      · exact Or.inr ⟨h, hx z hz⟩
    · rw [if_neg hxy]
      have hyx : y.timestamp < x.timestamp := by
        simpa [sigLE] using hxy
      refine List.Pairwise.cons ?_ ?_
      · intro z hz
        rcases (List.mem_orderedInsert sigLE).mp hz with rfl | hz'
        · exact Or.inl hyx
        · exact (List.pairwise_cons.mp hp).1 z hz'
      · exact ih (List.sorted_cons.mp hs).2 hp.of_cons
          (fun z hz => hx z (List.mem_cons_of_mem y hz))

theorem pairwise_insertionSort_stable (f : Sig → ℕ) (l : List Sig)
    (hp : l.Pairwise (fun a b => f a ≤ f b)) :
    (sortSignals l).Pairwise (fun a b => a.timestamp < b.timestamp ∨
      (a.timestamp = b.timestamp ∧ f a ≤ f b)) := by
  induction l with
  | nil => simp [sortSignals]
  | cons a l ih =>
    rw [sortSignals, List.insertionSort]
    refine pairwise_orderedInsert_stable f a _ (List.sorted_insertionSort sigLE l)
      (ih hp.of_cons) ?_
    intro y hy
    exact (List.pairwise_cons.mp hp).1 y ((List.mem_insertionSort sigLE).mp hy)

theorem mem_collectSignals_symbol (symbols : List String) (gen : String → List Sig)
    (hsym : ∀ sym ∈ symbols, ∀ s ∈ gen sym, s.symbol = sym)
    (s : Sig) (hs : s ∈ collectSignals symbols gen) : s.symbol ∈ symbols := by
  simp only [collectSignals, List.mem_flatten, List.mem_map] at hs
  obtain ⟨block, ⟨sym, hsymmem, rfl⟩, hsb⟩ := hs
  rw [hsym sym hsymmem s hsb]
  exact hsymmem

theorem collectSignals_pairwise_rank (symbols : List String) (gen : String → List Sig)
    (hnd : symbols.Nodup)
    (hsym : ∀ sym ∈ symbols, ∀ s ∈ gen sym, s.symbol = sym) :
    (collectSignals symbols gen).Pairwise
      (fun a b => symbols.indexOf a.symbol ≤ symbols.indexOf b.symbol) := by
  induction symbols with
  | nil => simp [collectSignals]
  | cons c rest ih =>
    have hcr : c ∉ rest := (List.nodup_cons.mp hnd).1
    have hblock : ∀ s ∈ gen c, s.symbol = c := hsym c (List.mem_cons_self c rest)
    have htail : ∀ sym ∈ rest, ∀ s ∈ gen sym, s.symbol = sym :=
      fun sym hmem => hsym sym (List.mem_cons_of_mem c hmem)
    rw [collectSignals, List.map_cons, List.flatten_cons, List.pairwise_append]
    refine ⟨?_, ?_, ?_⟩
    · refine List.pairwise_of_forall_mem_list ?_
      intro a ha b hb
      rw [hblock a ha, hblock b hb]
    · refine (ih (List.nodup_cons.mp hnd).2 htail).imp_of_mem ?_
      intro a b ha hb hab
      have ha' : a.symbol ∈ rest := mem_collectSignals_symbol rest gen htail a ha
      have hb' : b.symbol ∈ rest := mem_collectSignals_symbol rest gen htail b hb
      have hac : c ≠ a.symbol := fun h => hcr (h ▸ ha')
      have hbc : c ≠ b.symbol := fun h => hcr (h ▸ hb')
      rw [List.indexOf_cons_ne rest hac, List.indexOf_cons_ne rest hbc]
      exact Nat.succ_le_succ hab
    · intro a ha b hb
      rw [hblock a ha, List.indexOf_cons_self]
      exact Nat.zero_le _
/-- C6: `run_backtest` pools the signals symbol by symbol in the order of the
symbols list and sorts the pool with Python's stable `list.sort` keyed on the
timestamp alone; hence in the executed sequence any two signals are ordered by
strictly increasing timestamp, with ties broken by the (stable, deterministic)
position of their symbol in the symbols list — an earlier signal's symbol
never comes after a later one's. -/
theorem pooled_signals_sorted_with_stable_ties (symbols : List String)
    (gen : String → List Sig) (hnd : symbols.Nodup)
    (hsym : ∀ sym ∈ symbols, ∀ s ∈ gen sym, s.symbol = sym) :
    (sortSignals (collectSignals symbols gen)).Pairwise
      (fun s1 s2 => s1.timestamp < s2.timestamp ∨
        (s1.timestamp = s2.timestamp ∧
          symbols.indexOf s1.symbol ≤ symbols.indexOf s2.symbol)) :=
  pairwise_insertionSort_stable (fun s => symbols.indexOf s.symbol) _
    (collectSignals_pairwise_rank symbols gen hnd hsym)

/-- Witness for C6: two symbols, each generating one signal with the same
timestamp; the sorted pool satisfies the tie-broken ordering. -/
theorem pooled_signals_sorted_with_stable_ties_witness :
    (["sh600000", "sz000001"] : List String).Nodup ∧
    (sortSignals (collectSignals ["sh600000", "sz000001"]
        (fun sym => if sym = "sh600000" then [⟨"sh600000", .buy, 10, 100, 5, 1, ""⟩]
          else if sym = "sz000001" then [⟨"sz000001", .sell, 9, 100, 5, 1, ""⟩]
          else []))).Pairwise
      (fun s1 s2 => s1.timestamp < s2.timestamp ∨
        (s1.timestamp = s2.timestamp ∧
          (["sh600000", "sz000001"] : List String).indexOf s1.symbol
            ≤ (["sh600000", "sz000001"] : List String).indexOf s2.symbol)) :=
  ⟨by decide,
    pooled_signals_sorted_with_stable_ties ["sh600000", "sz000001"] _ (by decide)
      (by
        intro sym hmem s hs
        fin_cases hmem <;> simp_all)⟩

/-! ### C10 — daily mark-to-market replay agrees with the running ledger -/

theorem tradesCashSum_append (ts : List TradeRec) (r : TradeRec) :
    tradesCashSum (ts ++ [r]) = tradesCashSum ts + cashDelta r := by
  simp [tradesCashSum]

theorem tradesQtySum_append (sym : String) (ts : List TradeRec) (r : TradeRec) :
    tradesQtySum sym (ts ++ [r])
      = tradesQtySum sym ts + (if TradeRec.symbol r = sym then qtyDelta r else 0) := by
  simp [tradesQtySum]

/-- One engine step either leaves (capital, trade log, holdings) unchanged, or
appends exactly one trade record whose `cashDelta`/`qtyDelta` accounts for the
whole state change. -/
theorem executeSingleTrade_step (p : EngineParams) (st : EngineState) (sig : Sig) :
    ((executeSingleTrade p st sig).1.trades = st.trades ∧
      (executeSingleTrade p st sig).1.capital = st.capital ∧
      (∀ sym, ((executeSingleTrade p st sig).1.holding sym).quantity
        = (st.holding sym).quantity)) ∨
    (∃ rec, (executeSingleTrade p st sig).1.trades = st.trades ++ [rec] ∧
      (executeSingleTrade p st sig).1.capital = st.capital + cashDelta rec ∧
      (∀ sym, ((executeSingleTrade p st sig).1.holding sym).quantity
        = (st.holding sym).quantity
          + (if TradeRec.symbol rec = sym then qtyDelta rec else 0))) := by
  cases hty : sig.signal_type with
  | hold =>
    left
    simp only [executeSingleTrade, hty]
    exact ⟨by trivial, by trivial, fun sym =>
      congrArg PosInfo.quantity (getEntry_ensurePos st.positions sig.symbol sym)⟩
  | buy =>
    simp only [executeSingleTrade, hty]
    split_ifs with h1 h2
    · left
      exact ⟨by trivial, by trivial, fun sym =>
        congrArg PosInfo.quantity (getEntry_ensurePos st.positions sig.symbol sym)⟩
    · right
      refine ⟨_, rfl, ?_, ?_⟩
      · simp only [buyFill, cashDelta]
        ring
      · intro sym
        by_cases hsym : sig.symbol = sym
        · subst hsym
          simp only [buyFill, EngineState.holding, getEntry_setEntry_self, Option.getD_some,
            TradeRec.symbol, qtyDelta, if_pos rfl, if_true]
          rw [getEntry_ensurePos]
        · simp only [buyFill, EngineState.holding, TradeRec.symbol, if_neg hsym]
          rw [getEntry_setEntry_ne _ _ _ _ hsym]
          rw [show (getEntry (ensurePos st.positions sig.symbol) sym).getD ⟨0, 0, 0⟩
              = (getEntry st.positions sym).getD ⟨0, 0, 0⟩
            from getEntry_ensurePos st.positions sig.symbol sym]
          ring
    · right
      refine ⟨_, rfl, ?_, ?_⟩
      · simp only [buyFill, cashDelta]
        ring
      · intro sym
        by_cases hsym : sig.symbol = sym
        · subst hsym
          simp only [buyFill, EngineState.holding, getEntry_setEntry_self, Option.getD_some,
            TradeRec.symbol, qtyDelta, if_pos rfl, if_true]
          rw [getEntry_ensurePos]
        · simp only [buyFill, EngineState.holding, TradeRec.symbol, if_neg hsym]
          rw [getEntry_setEntry_ne _ _ _ _ hsym]
          rw [show (getEntry (ensurePos st.positions sig.symbol) sym).getD ⟨0, 0, 0⟩
              = (getEntry st.positions sym).getD ⟨0, 0, 0⟩
            from getEntry_ensurePos st.positions sig.symbol sym]
          ring
  | sell =>
    have hpos := getEntry_ensurePos st.positions sig.symbol sig.symbol
    simp only [executeSingleTrade, hty, hpos]
    split_ifs with h1 h2
    · left
      exact ⟨by trivial, by trivial, fun sym =>
        congrArg PosInfo.quantity (getEntry_ensurePos st.positions sig.symbol sym)⟩
    · right
      refine ⟨_, rfl, ?_, ?_⟩
      · simp only [cashDelta]
      · intro sym
        by_cases hsym : sig.symbol = sym
        · subst hsym
          simp only [EngineState.holding, getEntry_setEntry_self, Option.getD_some,
            TradeRec.symbol, qtyDelta, if_pos rfl, if_true]
          ring
        · simp only [EngineState.holding, TradeRec.symbol, if_neg hsym]
          rw [getEntry_setEntry_ne _ _ _ _ hsym]
          rw [show (getEntry (ensurePos st.positions sig.symbol) sym).getD ⟨0, 0, 0⟩
              = (getEntry st.positions sym).getD ⟨0, 0, 0⟩
            from getEntry_ensurePos st.positions sig.symbol sym]
          ring
    · right
      refine ⟨_, rfl, ?_, ?_⟩
      · simp only [cashDelta]
      · intro sym
        by_cases hsym : sig.symbol = sym
        · subst hsym
          simp only [EngineState.holding, getEntry_setEntry_self, Option.getD_some,
            TradeRec.symbol, qtyDelta, if_pos rfl, if_true]
          ring
        · simp only [EngineState.holding, TradeRec.symbol, if_neg hsym]
          rw [getEntry_setEntry_ne _ _ _ _ hsym]
          rw [show (getEntry (ensurePos st.positions sig.symbol) sym).getD ⟨0, 0, 0⟩
              = (getEntry st.positions sym).getD ⟨0, 0, 0⟩
            from getEntry_ensurePos st.positions sig.symbol sym]
          ring

/-- The running ledger's invariant: capital minus the cash movement encoded in
the trade log, and each holding minus its encoded share movement, are
constants of the fold. -/
theorem runSignals_invariant (p : EngineParams) (sigs : List Sig) :
    ∀ st : EngineState,
      ((runSignals p st sigs).capital - tradesCashSum (runSignals p st sigs).trades
        = st.capital - tradesCashSum st.trades) ∧
      ∀ sym, ((runSignals p st sigs).holding sym).quantity
          - tradesQtySum sym (runSignals p st sigs).trades
        = (st.holding sym).quantity - tradesQtySum sym st.trades := by
  induction sigs with
  | nil => intro st; exact ⟨rfl, fun _ => rfl⟩
  | cons sig rest ih =>
    intro st
    have hrun : runSignals p st (sig :: rest)
        = runSignals p (executeSingleTrade p st sig).1 rest := rfl
    rw [hrun]
    obtain ⟨hc, hq⟩ := ih (executeSingleTrade p st sig).1
    rcases executeSingleTrade_step p st sig with ⟨ht', hc', hq'⟩ | ⟨rec, ht', hc', hq'⟩
    · refine ⟨by rw [hc, hc', ht'], fun sym => by rw [hq sym, hq' sym, ht']⟩
    · constructor
      · rw [hc, hc', ht', tradesCashSum_append]
        ring
      · intro sym
        rw [hq sym, hq' sym, ht', tradesQtySum_append]
        ring

theorem runSignals_final (p : EngineParams) (c : ℚ) (sigs : List Sig) :
    (runSignals p (initialState c) sigs).capital
      = c + tradesCashSum (runSignals p (initialState c) sigs).trades ∧
    ∀ sym, ((runSignals p (initialState c) sigs).holding sym).quantity
      = tradesQtySum sym (runSignals p (initialState c) sigs).trades := by
  obtain ⟨hc, hq⟩ := runSignals_invariant p sigs (initialState c)
  constructor
  · have h0 : tradesCashSum (initialState c).trades = 0 := rfl
    have h1 : (initialState c).capital = c := rfl
    rw [h0, h1] at hc
    linarith [hc]
  · intro sym
    have h := hq sym
    have h0 : tradesQtySum sym (initialState c).trades = 0 := rfl
    have h1 : ((initialState c).holding sym).quantity = 0 := rfl
    rw [h0, h1] at h
    omega

theorem getEntry_ensureReplay (ps : List (String × ReplayPos)) (sym sym' : String) :
    (getEntry (ensureReplay ps sym) sym').getD ⟨0, 0⟩ = (getEntry ps sym').getD ⟨0, 0⟩ := by
  unfold ensureReplay
  cases h : getEntry ps sym with
  | some v => rfl
  | none =>
    rw [getEntry_append]
    cases h' : getEntry ps sym' with
    | some v => rfl
    | none =>
      by_cases hss : sym = sym' <;> simp [getEntry, hss]

theorem replayPos_getD_quantity (o : Option ReplayPos) :
    (o.getD ⟨0, 0⟩).quantity = (o.map ReplayPos.quantity).getD 0 := by
  cases o <;> rfl

theorem applyReplayTrade_cash (st : ReplayState) (t : TradeRec) :
    (applyReplayTrade st t).cash = st.cash + cashDelta t := by
  cases t <;> simp [applyReplayTrade, cashDelta] <;> ring

theorem applyReplayTrade_qty (st : ReplayState) (t : TradeRec) (sym : String) :
    (applyReplayTrade st t).qty sym
      = st.qty sym + (if TradeRec.symbol t = sym then qtyDelta t else 0) := by
  have key : ∀ (sym0 : String) (v : ReplayPos),
      ((getEntry (setEntry (ensureReplay st.positions sym0) sym0 v) sym).map
        ReplayPos.quantity).getD 0
        = if sym0 = sym then v.quantity
          else ((getEntry st.positions sym).map ReplayPos.quantity).getD 0 := by
    intro sym0 v
    by_cases hsym : sym0 = sym
    · subst hsym
      rw [getEntry_setEntry_self]
      simp
    · rw [getEntry_setEntry_ne _ _ _ _ hsym, if_neg hsym, ← replayPos_getD_quantity,
        getEntry_ensureReplay, replayPos_getD_quantity]
  cases t with
  | buyRec ts sym0 q price a cm tc ca =>
    simp only [applyReplayTrade, ReplayState.qty, TradeRec.symbol, qtyDelta]
    rw [key]
    by_cases hsym : sym0 = sym
    · subst hsym
      simp only [← replayPos_getD_quantity, getEntry_ensureReplay]
      simp
    · simp [hsym]
  | sellRec ts sym0 q price a cm stx tf na pl ca =>
    simp only [applyReplayTrade, ReplayState.qty, TradeRec.symbol, qtyDelta]
    rw [key]
    by_cases hsym : sym0 = sym
    · subst hsym
      simp only [← replayPos_getD_quantity, getEntry_ensureReplay]
      simp [sub_eq_add_neg]
    · simp [hsym]

theorem replay_foldl_cash (ts : List TradeRec) :
    ∀ st : ReplayState, (ts.foldl applyReplayTrade st).cash = st.cash + tradesCashSum ts := by
  induction ts with
  | nil => intro st; simp [tradesCashSum]
  | cons t rest ih =>
    intro st
    rw [List.foldl_cons, ih, applyReplayTrade_cash]
    simp [tradesCashSum]
    ring

theorem replay_foldl_qty (sym : String) (ts : List TradeRec) :
    ∀ st : ReplayState,
      (ts.foldl applyReplayTrade st).qty sym = st.qty sym + tradesQtySum sym ts := by
  induction ts with
  | nil => intro st; simp [tradesQtySum]
  | cons t rest ih =>
    intro st
    rw [List.foldl_cons, ih, applyReplayTrade_qty]
    simp [tradesQtySum]
    ring

theorem replayTradeLog_cash (dayOf : ℤ → ℤ) (trades : List TradeRec) (days : List ℤ) :
    ∀ st : ReplayState,
      (days.foldl (replayDay dayOf trades) st).cash
        = st.cash + (days.map (fun d =>
            tradesCashSum (trades.filter (fun t => dayOf t.timestamp == d)))).sum := by
  induction days with
  | nil => intro st; simp
  | cons d rest ih =>
    intro st
    rw [List.foldl_cons, ih]
    simp only [replayDay, replay_foldl_cash, List.map_cons, List.sum_cons]
    ring

theorem replayTradeLog_qty (dayOf : ℤ → ℤ) (trades : List TradeRec) (days : List ℤ)
    (sym : String) :
    ∀ st : ReplayState,
      (days.foldl (replayDay dayOf trades) st).qty sym
        = st.qty sym + (days.map (fun d =>
            tradesQtySum sym (trades.filter (fun t => dayOf t.timestamp == d)))).sum := by
  induction days with
  | nil => intro st; simp
  | cons d rest ih =>
    intro st
    rw [List.foldl_cons, ih]
    simp only [replayDay, replay_foldl_qty, List.map_cons, List.sum_cons]
    ring

theorem sum_map_ite_of_not_mem {M : Type} [AddCommMonoid M] (x : ℤ) (v : M) :
    ∀ ds : List ℤ, x ∉ ds → (ds.map (fun d => if x = d then v else 0)).sum = 0 := by
  intro ds
  induction ds with
  | nil => intro _; rfl
  | cons d rest ih =>
    intro h
    simp only [List.mem_cons] at h
    push_neg at h
    simp [h.1, ih h.2]

theorem sum_map_ite_of_mem {M : Type} [AddCommMonoid M] (x : ℤ) (v : M) :
    ∀ ds : List ℤ, ds.Nodup → x ∈ ds → (ds.map (fun d => if x = d then v else 0)).sum = v := by
  intro ds
  induction ds with
  | nil => intro _ h; cases h
  | cons d rest ih =>
    intro hnd hmem
    rcases List.mem_cons.mp hmem with rfl | hmem'
    · have hnot : x ∉ rest := (List.nodup_cons.mp hnd).1
      simp [sum_map_ite_of_not_mem x v rest hnot]
    · have hne : x ≠ d := by
        rintro rfl
        exact (List.nodup_cons.mp hnd).1 hmem'
      simp [hne, ih (List.nodup_cons.mp hnd).2 hmem']

theorem list_sum_map_add {M : Type} [AddCommMonoid M] {A : Type} (f g : A → M) :
    ∀ l : List A, (l.map (fun a => f a + g a)).sum = (l.map f).sum + (l.map g).sum := by
  intro l
  induction l with
  | nil => simp
  | cons a rest ih =>
    simp [ih]
    abel

/-- Each trade whose day is among the (distinct) trading days is replayed
exactly once: summing any per-trade quantity over the day buckets equals
summing it over the whole log. -/
theorem sum_filter_day_buckets {M : Type} [AddCommMonoid M] (δ : TradeRec → M)
    (dayOf : ℤ → ℤ) (days : List ℤ) :
    ∀ trades : List TradeRec, days.Nodup →
      (∀ t ∈ trades, dayOf t.timestamp ∈ days) →
      (days.map (fun d =>
          ((trades.filter (fun t => dayOf t.timestamp == d)).map δ).sum)).sum
        = (trades.map δ).sum := by
  intro trades
  induction trades with
  | nil =>
    intro _ _
    simp
  | cons t ts ih =>
    intro hnd hcov
    have hcons : ∀ d : ℤ,
        (((t :: ts).filter (fun u => dayOf u.timestamp == d)).map δ).sum
          = (if dayOf t.timestamp = d then δ t else 0)
            + ((ts.filter (fun u => dayOf u.timestamp == d)).map δ).sum := by
      intro d
      by_cases h : dayOf t.timestamp = d
      · simp [List.filter_cons, h]
      · simp [List.filter_cons, h]
    have hrw : (days.map (fun d =>
        (((t :: ts).filter (fun u => dayOf u.timestamp == d)).map δ).sum)).sum
        = (days.map (fun d => (if dayOf t.timestamp = d then δ t else 0)
            + ((ts.filter (fun u => dayOf u.timestamp == d)).map δ).sum)).sum := by
      congr 1
      exact List.map_congr_left (fun d _ => hcons d)
    rw [hrw, list_sum_map_add, sum_map_ite_of_mem _ _ days hnd
      (hcov t (List.mem_cons_self t ts)),
      ih hnd (fun u hu => hcov u (List.mem_cons_of_mem t hu))]
    simp

/-- C10: the daily mark-to-market replay agrees with the running ledger —
whenever every recorded trade's timestamp falls on one of the (distinct)
trading days, the cash and per-symbol share counts that
`_calculate_daily_portfolio_values` re-derives from the trade log coincide,
after the last day, with the running ledger's final `current_capital` and
final position quantities produced by `_execute_single_trade`. -/
theorem daily_replay_matches_ledger (p : EngineParams) (c : ℚ) (sigs : List Sig)
    (dayOf : ℤ → ℤ) (days : List ℤ) (hnd : days.Nodup)
    (hcov : ∀ t ∈ (runSignals p (initialState c) sigs).trades,
      dayOf t.timestamp ∈ days) :
    (replayTradeLog dayOf (runSignals p (initialState c) sigs).trades c days).cash
      = (runSignals p (initialState c) sigs).capital ∧
    ∀ sym, (replayTradeLog dayOf (runSignals p (initialState c) sigs).trades c days).qty sym
      = ((runSignals p (initialState c) sigs).holding sym).quantity := by
  obtain ⟨hec, heq⟩ := runSignals_final p c sigs
  constructor
  · rw [replayTradeLog, replayTradeLog_cash, hec]
    simp only [tradesCashSum]
    rw [sum_filter_day_buckets cashDelta dayOf days _ hnd hcov]
  · intro sym
    rw [replayTradeLog, replayTradeLog_qty, heq sym]
    simp only [tradesQtySum]
    rw [sum_filter_day_buckets (fun t => if TradeRec.symbol t = sym then qtyDelta t else 0)
      dayOf days _ hnd hcov]
    simp [ReplayState.qty, getEntry]

/-- Witness for C10: the round-trip trade log (buy day 0, sell day 1) replayed
over the trading days `[0, 1]` reproduces the running ledger's final cash. -/
theorem daily_replay_matches_ledger_witness :
    ([0, 1] : List ℤ).Nodup ∧
    (∀ t ∈ (runSignals defaultEngineParams (initialState 100000)
        [⟨"600000", .buy, 10, 1000, 0, 1, ""⟩, ⟨"600000", .sell, 11, 1000, 1, 1, ""⟩]).trades,
      (fun z : ℤ => z) t.timestamp ∈ ([0, 1] : List ℤ)) ∧
    (replayTradeLog (fun z : ℤ => z)
        (runSignals defaultEngineParams (initialState 100000)
          [⟨"600000", .buy, 10, 1000, 0, 1, ""⟩, ⟨"600000", .sell, 11, 1000, 1, 1, ""⟩]).trades
        100000 [0, 1]).cash
      = (runSignals defaultEngineParams (initialState 100000)
          [⟨"600000", .buy, 10, 1000, 0, 1, ""⟩,
            ⟨"600000", .sell, 11, 1000, 1, 1, ""⟩]).capital := by
  have ht : (runSignals defaultEngineParams (initialState 100000)
      [⟨"600000", .buy, 10, 1000, 0, 1, ""⟩, ⟨"600000", .sell, 11, 1000, 1, 1, ""⟩]).trades
      = [TradeRec.buyRec 0 "600000" 1000 10 10000 3 10003 89997,
          TradeRec.sellRec 1 "600000" 1000 11 11000 3.30 11 14.30 10985.70 985.70
            100982.70] := by
    norm_num [runSignals, List.foldl, executeSingleTrade, buyFill, ensurePos, getEntry,
      setEntry, initialState, defaultEngineParams]
  have hcov : ∀ t ∈ (runSignals defaultEngineParams (initialState 100000)
      [⟨"600000", .buy, 10, 1000, 0, 1, ""⟩, ⟨"600000", .sell, 11, 1000, 1, 1, ""⟩]).trades,
      (fun z : ℤ => z) t.timestamp ∈ ([0, 1] : List ℤ) := by
    rw [ht]
    intro t htm
    rcases List.mem_cons.mp htm with rfl | htm2
    · decide
    · rcases List.mem_cons.mp htm2 with rfl | htm3
      · decide
      · cases htm3
  exact ⟨by decide, hcov,
    (daily_replay_matches_ledger defaultEngineParams 100000
      [⟨"600000", .buy, 10, 1000, 0, 1, ""⟩, ⟨"600000", .sell, 11, 1000, 1, 1, ""⟩]
      (fun z : ℤ => z) [0, 1] (by decide) hcov).1⟩

end Stone
